import Mathlib

/-!
Verification of the text-layout and glyph-fallback engine of
`nonebot-plugin-imageutils`, shallowly embedded from
`src/nonebot_plugin_imageutils/text2image.py` and
`src/nonebot_plugin_imageutils/fonts.py`.

External collaborators (PIL font rasterization, matplotlib font lookup,
font-file glyph tables) are modelled as explicit environment records; all
layout, wrapping and markup-parsing logic is translated directly from the
Python source.  Python `float` arithmetic on metrics is modelled with `ℚ`
(the source only ever divides two integers), Python strings with
`List Char`, and Python generators with the lists they produce.
-/

/-- Horizontal alignment, `HAlignType = Literal["left", "right", "center"]`
from `types.py`. -/
inductive HAlign where
  | left
  | right
  | center
  deriving DecidableEq

/-- `ColorType = Union[str, Tuple[int,int,int], Tuple[int,int,int,int]]` from
`types.py`.  Colors parsed out of markup are carried as the matched string
(`str`), exactly as the Python code keeps the regex group. -/
inductive ColorV where
  | str (s : List Char)
  | rgb (r g b : ℤ)
  | rgba (r g b a : ℤ)
  deriving DecidableEq

/-- A font handle as produced by `fonts.py`'s `Font`: the family name and the
optional fixed rasterization size (`valid_size`).  The glyph table and the
file contents live in the environment. -/
structure FontH where
  family : List Char
  validSize : Option ℕ
  deriving DecidableEq

/-- Python truthiness of `self.font.valid_size` (`None` and `0` are falsy). -/
def optTruthy : Option ℕ → Bool
  | none => false
  | some n => n != 0

/-- Environment consumed by `text2image.py`: font resolution
(`get_proper_font` plus the `fallback_fonts_regular/bold` module constants
imported from `fonts.py`) and PIL's `FreeTypeFont.getmetrics` / `getsize`
answers for a font loaded at a given pixel size. -/
structure BBEnv where
  getProperFont : Char → Bool → List Char → List (List Char) → Option FontH
  fallbackRegular0 : FontH
  fallbackBold0 : FontH
  getmetrics : FontH → ℕ → ℤ × ℤ
  getsize : FontH → ℕ → Char → ℤ → ℤ × ℤ

/-- One styled character with its computed metrics: the `Char` class of
`text2image.py` (a GlyphRun in the spec's vocabulary). -/
structure GlyphRun where
  char : Char
  font : FontH
  fontsize : ℕ
  fill : ColorV
  strokeWidth : ℤ
  strokeFill : Option ColorV
  ascent : ℚ
  descent : ℚ
  width : ℚ
  height : ℚ
  deriving DecidableEq

/-- `Char.__init__`: load the font at `valid_size` when that is truthy and at
the requested size otherwise, read `(ascent, descent)` from `getmetrics` and
`(width, height)` from `getsize`, then scale all four metrics by
`fontsize / valid_size` for fixed-size fonts (ratio `1` models the unscaled
branch, whose stored ints equal their `ℚ` casts). -/
def mkChar (env : BBEnv) (c : Char) (font : FontH) (fontsize : ℕ)
    (fill : ColorV) (strokeWidth : ℤ) (strokeFill : Option ColorV) : GlyphRun :=
  let loadSize : ℕ := if optTruthy font.validSize then font.validSize.getD 0 else fontsize
  let ad := env.getmetrics font loadSize
  let wh := env.getsize font loadSize c strokeWidth
  let ratio : ℚ :=
    if optTruthy font.validSize then (fontsize : ℚ) / ((font.validSize.getD 0 : ℕ) : ℚ) else 1
  { char := c, font := font, fontsize := fontsize, fill := fill,
    strokeWidth := strokeWidth, strokeFill := strokeFill,
    ascent := (ad.1 : ℚ) * ratio, descent := (ad.2 : ℚ) * ratio,
    width := (wh.1 : ℚ) * ratio, height := (wh.2 : ℚ) * ratio }

/-- Python's `max` over a non-empty list (the code guards the empty case
separately). -/
def listMax : List ℚ → ℚ
  | [] => 0
  | x :: xs => xs.foldl max x

/-- The `Line` class: an ordered sequence of glyph runs sharing an
alignment. -/
structure Line where
  chars : List GlyphRun
  align : HAlign
  deriving DecidableEq

/-- `Line.width`: `0` for an empty line, else the sum of the runs' widths. -/
def Line.width (l : Line) : ℚ :=
  if l.chars = [] then 0 else (l.chars.map GlyphRun.width).sum

/-- `Line.height`: `0` for an empty line, else the max of the runs' heights. -/
def Line.height (l : Line) : ℚ :=
  if l.chars = [] then 0 else listMax (l.chars.map GlyphRun.height)

/-- `Line.ascent`: `0` for an empty line, else the max of the runs' ascents. -/
def Line.ascent (l : Line) : ℚ :=
  if l.chars = [] then 0 else listMax (l.chars.map GlyphRun.ascent)

/-- `Line.descent`: `0` for an empty line, else the max of the runs'
descents. -/
def Line.descent (l : Line) : ℚ :=
  if l.chars = [] then 0 else listMax (l.chars.map GlyphRun.descent)

/-- Python slice `s[a:b]` (for `a ≤ b`; out-of-range indices are clamped,
just as in Python). -/
def pySlice (s : List α) (a b : ℕ) : List α := (s.drop a).take (b - a)

/-- The loop body of `Line.wrap`: `fuel` counts the remaining iterations of
`for idx in range(len(self.chars))` (so `idx + fuel = len(chars)` at every
call), `last` is `last_idx`.  The condition line builds a `Line` without an
explicit alignment, i.e. with the Python default `"left"`, exactly as the
source does. -/
def wrapGo (chars : List GlyphRun) (align : HAlign) (w : ℚ) :
    ℕ → ℕ → ℕ → List Line
  | 0, last, _ => [Line.mk (chars.drop last) align]
  | fuel + 1, last, idx =>
    if (Line.mk (pySlice chars last (idx + 1)) HAlign.left).width > w then
      Line.mk (pySlice chars last idx) align :: wrapGo chars align w fuel idx (idx + 1)
    else
      wrapGo chars align w fuel last (idx + 1)

/-- `Line.wrap(width)`, as the list its generator yields. -/
def Line.wrap (l : Line) (w : ℚ) : List Line :=
  wrapGo l.chars l.align w l.chars.length 0 0

/-- The `Text2Image` class: lines plus inter-line spacing. -/
structure Text2Image where
  lines : List Line
  spacing : ℤ
  deriving DecidableEq

/-- `Text2Image.width`: `0` with no lines, else the max line width. -/
def Text2Image.width (t : Text2Image) : ℚ :=
  if t.lines = [] then 0 else listMax (t.lines.map Line.width)

/-- `Text2Image.height`: `0` with no lines, else
`sum(ascents) + lines[-1].descent + spacing * (len(lines) - 1)`. -/
def Text2Image.height (t : Text2Image) : ℚ :=
  match t.lines.getLast? with
  | none => 0
  | some last =>
    (t.lines.map Line.ascent).sum + last.descent
      + (t.spacing : ℚ) * (((t.lines.length - 1 : ℕ) : ℤ) : ℚ)

/-- Python `int(...)` on a rational: truncation toward zero. -/
def pyInt (q : ℚ) : ℤ := if 0 ≤ q then ⌊q⌋ else ⌈q⌉

/-- The size of the surface allocated by `Text2Image.to_image`:
`(int(width + padding[0]*2), int(height + padding[1]*2))`. -/
def Text2Image.toImageSize (t : Text2Image) (padding : ℤ × ℤ) : ℤ × ℤ :=
  (pyInt (t.width + (padding.1 : ℚ) * 2), pyInt (t.height + (padding.2 : ℚ) * 2))

/-- Sum of the widths of the runs in the slice `chars[a:b]` — the quantity the
wrap loop compares against `width`. -/
def sliceW (chars : List GlyphRun) (a b : ℕ) : ℚ :=
  ((pySlice chars a b).map GlyphRun.width).sum

/-- Registry consumed by `fonts.py`'s `get_proper_font`: `Font.find(family,
style, weight)` (total — matplotlib's `findfont` always falls back to some
font) and the glyph-table test `Font.has_char`. -/
structure FontReg where
  find : List Char → List Char → List Char → FontH
  hasChar : FontH → Char → Bool

/-- The `for family in fallback_fonts` loop of `get_proper_font`.  `checked`
mirrors the `checked_fonts` list, which the source initializes to `[]` and
never appends to (the `continue` guard is dead code, kept here verbatim). -/
def gpfLoop (reg : FontReg) (c : Char) (st wt : List Char) :
    List (List Char) → List (List Char) → Option FontH
  | _, [] => none
  | checked, fam :: rest =>
    let font := reg.find fam st wt
    if font.family ∈ checked then gpfLoop reg c st wt checked rest
    else if reg.hasChar font c then some font
    else gpfLoop reg c st wt checked rest

/-- The two Python list objects `get_proper_font` can mutate: the caller's
`fallback_fonts` argument and the configuration default list it falls back to
when the argument is empty. -/
structure GpfState where
  caller : List (List Char)
  defaults : List (List Char)
  deriving DecidableEq

/-- The effective `fallback_fonts` value after
`fallback_fonts = fallback_fonts or imageutils_config.default_fallback_fonts`
and `if fontname: fallback_fonts.insert(0, fontname)` (empty `fontname`
models both `None` and `""`, Python's falsy strings). -/
def gpfEffectiveList (fontname : List Char) (fallback defaults : List (List Char)) :
    List (List Char) :=
  let eff := if fallback.isEmpty then defaults else fallback
  if fontname.isEmpty then eff else fontname :: eff

/-- The result `get_proper_font` computes from an effective fallback list:
the loop, then `Font.find(fallback_fonts[0], ...)` (`none` models the
`IndexError` an empty list would raise). -/
def gpfResult (reg : FontReg) (c : Char) (st wt : List Char)
    (fb : List (List Char)) : Option FontH :=
  match gpfLoop reg c st wt [] fb with
  | some f => some f
  | none => fb.head?.map fun f0 => reg.find f0 st wt

/-- One call of `get_proper_font` with its side effect on the two list
objects: `insert(0, fontname)` mutates the caller's list when that is
non-empty, and the shared default list otherwise. -/
def getProperFontRun (reg : FontReg) (c : Char) (st wt fontname : List Char)
    (s : GpfState) : Option FontH × GpfState :=
  let fb := gpfEffectiveList fontname s.caller s.defaults
  let s' :=
    if fontname.isEmpty then s
    else if s.caller.isEmpty then ⟨s.caller, fb⟩ else ⟨fb, s.defaults⟩
  (gpfResult reg c st wt fb, s')

/-- `get_proper_font(char, style, weight, fontname, fallback_fonts)` as a pure
function of its arguments and the configuration default list. -/
def getProperFont (reg : FontReg) (c : Char) (st wt fontname : List Char)
    (fallback defaults : List (List Char)) : Option FontH :=
  (getProperFontRun reg c st wt fontname ⟨fallback, defaults⟩).1

/-- Iterated calls of `get_proper_font` with the same arguments, tracking the
mutated list state across calls. -/
def gpfIter (reg : FontReg) (c : Char) (st wt fontname : List Char) :
    ℕ → GpfState → GpfState
  | 0, s => s
  | k + 1, s => gpfIter reg c st wt fontname k (getProperFontRun reg c st wt fontname s).2

/-- Does the literal `w` occur in `s` starting at position `p`?  (Matches the
regex engine testing a fixed string at a position; an occurrence must fit
inside `s`.) -/
def litAt (s : List Char) (p : ℕ) (w : List Char) : Bool :=
  decide (pySlice s p (p + w.length) = w)

/-- A single regex match of one `[tag...]content[/tag]` block, with positions
relative to the searched string: `ts = start("tag")`, `cs = start("content")`,
`ce = end("content")`, `te = end("tag")`. -/
structure RawMatch (α : Type) where
  param : α
  ts : ℕ
  cs : ℕ
  ce : ℕ
  te : ℕ

/-- A parameter matcher: given the position right after `"[" + type`, return
the parsed parameter value and the position of the closing `]` of the opening
tag.  Each instance folds in the regex engine's backtracking over the `]`
that immediately follows the parameter group. -/
def ParamMatcher (α : Type) : Type := List Char → ℕ → Option (α × ℕ)

/-- The position of the last occurrence of `close` at or after `start` —
where the greedy `(?P<content>.*)` (with `re.S`) ends. -/
def lastCloseAt (s close : List Char) (start : ℕ) : Option ℕ :=
  (((List.range (s.length + 1)).filter fun q =>
      decide (start ≤ q) && litAt s q close)).getLast?

/-- One attempted match of `\[type(=param)?\](?P<content>.*)\[/type\]` at
position `p`, greedy content extending to the last closing tag. -/
def matchAt (name : List Char) (pm : ParamMatcher α) (s : List Char) (p : ℕ) :
    Option (RawMatch α) :=
  if litAt s p ('[' :: name) then
    match pm s (p + 1 + name.length) with
    | none => none
    | some (a, q) =>
      if litAt s q [']'] then
        match lastCloseAt s ('[' :: '/' :: (name ++ [']'])) (q + 1) with
        | none => none
        | some ce => some ⟨a, p, q + 1, ce, ce + (name.length + 3)⟩
      else none
  else none

/-- `re.finditer`: scan left to right, yielding non-overlapping matches and
resuming after the end of each; `fuel` bounds the scan (the top-level call
passes `len(s) + 1`, which covers every start position). -/
def finditerF (name : List Char) (pm : ParamMatcher α) (s : List Char) :
    ℕ → ℕ → List (RawMatch α)
  | 0, _ => []
  | fuel + 1, p =>
    match matchAt name pm s p with
    | some m => m :: finditerF name pm s fuel m.te
    | none => finditerF name pm s fuel (p + 1)

/-- One `(param, tag1_start, tag1_end, tag2_start, tag2_end)` tuple yielded by
`split_text`. -/
structure TagSpan (α : Type) where
  param : α
  t1s : ℕ
  t1e : ℕ
  t2s : ℕ
  t2e : ℕ

/-- The tuple `parse_tag` yields for a match found at offset `off`. -/
def mkPart (off : ℕ) (m : RawMatch α) : TagSpan α :=
  ⟨m.param, off + m.ts, off + m.cs, off + m.ce, off + m.te⟩

/-- The recursive `parse_tag`: children of each match (parsed from its content
with the accumulated offset) are yielded before the match's own tuple.  `fuel`
bounds the nesting depth (the content of a match is at least 7 characters
shorter than the matched text, so `len(s) + 1` always suffices). -/
def parseTagF (name : List Char) (pm : ParamMatcher α) :
    ℕ → List Char → ℕ → List (TagSpan α)
  | 0, _, _ => []
  | fuel + 1, s, off =>
    (finditerF name pm s (s.length + 1) 0).flatMap fun m =>
      parseTagF name pm fuel (pySlice s m.cs m.ce) (off + m.cs) ++ [mkPart off m]

/-- `split_text`: all parsed spans followed by the catch-all
`(default_param, 0, 0, len(text), len(text))`. -/
def splitTextF (name : List Char) (pm : ParamMatcher α) (d : α) (s : List Char) :
    List (TagSpan α) :=
  parseTagF name pm (s.length + 1) s 0 ++ [⟨d, 0, 0, s.length, s.length⟩]

/-- `get_param`: walk the spans in yield order; an index inside a non-empty
opening- or closing-tag region resolves to `None`, an index inside a content
region resolves to that span's parameter, and the walk's end is `None`. -/
def getParam : List (TagSpan α) → ℕ → Option α
  | [], _ => none
  | p :: rest, i =>
    if p.t1s ≠ p.t1e ∧ p.t1s ≤ i ∧ i < p.t1e then none
    else if p.t2s ≠ p.t2e ∧ p.t2s ≤ i ∧ i < p.t2e then none
    else if p.t1e ≠ p.t2s ∧ p.t1e ≤ i ∧ i < p.t2s then some p.param
    else getParam rest i

/-- Parameter matcher of `split_align`: `=(?P<param>left|right|center)`
followed by `]` (alternatives in pattern order). -/
def alignPM : ParamMatcher HAlign := fun s p =>
  if litAt s p ('=' :: "left]".toList) then some (HAlign.left, p + 5)
  else if litAt s p ('=' :: "right]".toList) then some (HAlign.right, p + 6)
  else if litAt s p ('=' :: "center]".toList) then some (HAlign.center, p + 7)
  else none

/-- Hex-digit test for the character class `[a-fA-F0-9]`. -/
def isHexDigit (c : Char) : Bool :=
  ('a' ≤ c && c ≤ 'f') || ('A' ≤ c && c ≤ 'F') || ('0' ≤ c && c ≤ '9')

/-- The keys of PIL's `ImageColor.colormap` (external data baked into
`split_color`'s pattern via `"|".join(colormap.keys())`), in the table's
order. -/
def colormapKeys : List (List Char) :=
  ["aliceblue", "antiquewhite", "aqua", "aquamarine", "azure", "beige",
   "bisque", "black", "blanchedalmond", "blue", "blueviolet", "brown",
   "burlywood", "cadetblue", "chartreuse", "chocolate", "coral",
   "cornflowerblue", "cornsilk", "crimson", "cyan", "darkblue", "darkcyan",
   "darkgoldenrod", "darkgray", "darkgrey", "darkgreen", "darkkhaki",
   "darkmagenta", "darkolivegreen", "darkorange", "darkorchid", "darkred",
   "darksalmon", "darkseagreen", "darkslateblue", "darkslategray",
   "darkslategrey", "darkturquoise", "darkviolet", "deeppink", "deepskyblue",
   "dimgray", "dimgrey", "dodgerblue", "firebrick", "floralwhite",
   "forestgreen", "fuchsia", "gainsboro", "ghostwhite", "gold", "goldenrod",
   "gray", "grey", "green", "greenyellow", "honeydew", "hotpink", "indianred",
   "indigo", "ivory", "khaki", "lavender", "lavenderblush", "lawngreen",
   "lemonchiffon", "lightblue", "lightcoral", "lightcyan",
   "lightgoldenrodyellow", "lightgreen", "lightgray", "lightgrey",
   "lightpink", "lightsalmon", "lightseagreen", "lightskyblue",
   "lightslategray", "lightslategrey", "lightsteelblue", "lightyellow",
   "lime", "limegreen", "linen", "magenta", "maroon", "mediumaquamarine",
   "mediumblue", "mediumorchid", "mediumpurple", "mediumseagreen",
   "mediumslateblue", "mediumspringgreen", "mediumturquoise",
   "mediumvioletred", "midnightblue", "mintcream", "mistyrose", "moccasin",
   "navajowhite", "navy", "oldlace", "olive", "olivedrab", "orange",
   "orangered", "orchid", "palegoldenrod", "palegreen", "paleturquoise",
   "palevioletred", "papayawhip", "peachpuff", "peru", "pink", "plum",
   "powderblue", "purple", "rebeccapurple", "red", "rosybrown", "royalblue",
   "saddlebrown", "salmon", "sandybrown", "seagreen", "seashell", "sienna",
   "silver", "skyblue", "slateblue", "slategray", "slategrey", "snow",
   "springgreen", "steelblue", "tan", "teal", "thistle", "tomato",
   "turquoise", "violet", "wheat", "white", "whitesmoke", "yellow",
   "yellowgreen"].map String.toList

/-- Parameter matcher of `split_color`.  The source builds the pattern with
`rf"#[a-fA-F0-9]{6}|{colors}"`: inside an f-string `{6}` is a replacement
field evaluating to the literal `6`, so the first alternative is
`#[a-fA-F0-9]6` — a `#`, ONE hex digit and a literal `6` — not six hex
digits.  The remaining alternatives are the colormap names, in order. -/
def colorPM : ParamMatcher ColorV := fun s p =>
  if litAt s p ['='] && (match s.get? (p + 1) with
      | some c => c = '#'
      | none => false) && (match s.get? (p + 2) with
      | some c => isHexDigit c
      | none => false) && litAt s (p + 3) ['6'] && litAt s (p + 4) [']'] then
    some (ColorV.str (pySlice s (p + 1) (p + 4)), p + 4)
  else
    colormapKeys.findSome? fun nm =>
      if litAt s p ('=' :: nm ++ [']']) then some (ColorV.str nm, p + 1 + nm.length)
      else none

/-- Count of the leading characters of `s[q:]` matched by a greedy `\S+`. -/
def nonSpaceRun (s : List Char) (q : ℕ) : ℕ :=
  ((s.drop q).takeWhile fun c => !c.isWhitespace).length

/-- One alternative `\S+\.EXT` of `split_font`'s pattern, with the regex
engine's backtracking: the largest end position whose last characters are the
extension, whose body is at least one non-space character, and which is
followed by the `]` the pattern requires. -/
def fontAltEnd (s : List Char) (q : ℕ) (ext : List Char) : Option ℕ :=
  (((List.range (nonSpaceRun s q + 1)).map (q + ·)).filter fun e =>
      decide (q + 1 + ext.length ≤ e) && litAt s (e - ext.length) ext &&
        litAt s e [']']).getLast?

/-- Parameter matcher of `split_font`:
`=(?P<param>\S+\.ttf|\S+\.ttc|\S+\.otf|\S+\.fnt)` followed by `]`. -/
def fontPM : ParamMatcher (List Char) := fun s p =>
  if litAt s p ['='] then
    ([".ttf", ".ttc", ".otf", ".fnt"].map String.toList).findSome? fun ext =>
      (fontAltEnd s (p + 1) ext).map fun e => (pySlice s (p + 1) e, e)
  else none

/-- Numeric value of a digit string, as Python's `int(...)` parses it. -/
def digitsVal (ds : List Char) : ℕ :=
  ds.foldl (fun acc c => 10 * acc + (c.toNat - '0'.toNat)) 0

/-- Parameter matcher of `split_size`: `=(?P<param>\d+)` followed by `]`
(the greedy digit run; the main loop's later `int(char_size)` is folded into
the parsed value). -/
def sizePM : ParamMatcher ℕ := fun s p =>
  if litAt s p ['='] then
    let ds := (s.drop (p + 1)).takeWhile Char.isDigit
    if ds.isEmpty then none
    else if litAt s (p + 1 + ds.length) [']'] then some (digitsVal ds, p + 1 + ds.length)
    else none
  else none

/-- Parameter matcher of `split_bold` (`has_param=False`): no characters
consumed, parameter `True`. -/
def boldPM : ParamMatcher Bool := fun _ p => some (true, p)

/-- The five span lists `from_bbcode_text` computes up front. -/
structure BBParts where
  align : List (TagSpan HAlign)
  color : List (TagSpan ColorV)
  font : List (TagSpan (List Char))
  size : List (TagSpan ℕ)
  bold : List (TagSpan Bool)

/-- `align_parts` … `bold_parts` for a given text and the construction-time
defaults (`align`, `fill`, `fontname`, `fontsize`; bold's catch-all parameter
is `False` since `has_param=False`). -/
def bbParts (s : List Char) (alignD : HAlign) (fillD : ColorV)
    (fontD : List Char) (sizeD : ℕ) : BBParts :=
  ⟨splitTextF "align".toList alignPM alignD s,
   splitTextF "color".toList colorPM fillD s,
   splitTextF "font".toList fontPM fontD s,
   splitTextF "size".toList sizePM sizeD s,
   splitTextF "b".toList boldPM false s⟩

/-- The five per-character attributes once every `get_param` has resolved. -/
structure BBStyle where
  align : HAlign
  color : ColorV
  fontName : List Char
  size : ℕ
  bold : Bool

/-- The chain of `get_param` calls at one character index; any `None` makes
the main loop `continue`, dropping the character. -/
def resolveStyleAt (P : BBParts) (i : ℕ) : Option BBStyle :=
  match getParam P.align i with
  | none => none
  | some al =>
    match getParam P.color i with
    | none => none
    | some co =>
      match getParam P.font i with
      | none => none
      | some fo =>
        match getParam P.size i with
        | none => none
        | some sz =>
          match getParam P.bold i with
          | none => none
          | some bo => some ⟨al, co, fo, sz, bo⟩

/-- `font = get_proper_font(char, char_bold, char_font, fallback_fonts)`
followed by the `if not font:` fallback to the head of the module-level
fallback stacks. -/
def bbResolveFont (env : BBEnv) (c : Char) (bold : Bool) (fontname : List Char)
    (fallback : List (List Char)) : FontH :=
  match env.getProperFont c bold fontname fallback with
  | some f => f
  | none => if bold then env.fallbackBold0 else env.fallbackRegular0

/-- The glyph run the main loop constructs:
`Char(char, font, int(char_size), char_color)`. -/
def bbRun (env : BBEnv) (c : Char) (bold : Bool) (fontname : List Char)
    (fallback : List (List Char)) (size : ℕ) (color : ColorV) : GlyphRun :=
  mkChar env c (bbResolveFont env c bold fontname fallback) size color 0 none

/-- The `for index, char in enumerate(text)` loop of `from_bbcode_text`:
skip characters whose style does not resolve, flush the accumulated line at a
newline (keeping `last_align`), flush it when the resolved alignment changes
(switching to the new alignment), and append the styled glyph run
otherwise. -/
def bbLoop (env : BBEnv) (fallback : List (List Char)) (P : BBParts) :
    List (ℕ × Char) → List Line → List GlyphRun → HAlign → List Line
  | [], lines, chars, lastAlign =>
    if chars.isEmpty then lines else lines ++ [Line.mk chars lastAlign]
  | (i, ch) :: rest, lines, chars, lastAlign =>
    match resolveStyleAt P i with
    | none => bbLoop env fallback P rest lines chars lastAlign
    | some st =>
      if ch = '\n' then
        bbLoop env fallback P rest (lines ++ [Line.mk chars lastAlign]) [] lastAlign
      else if st.align ≠ lastAlign then
        bbLoop env fallback P rest (lines ++ [Line.mk chars lastAlign])
          [bbRun env ch st.bold st.fontName fallback st.size st.color] st.align
      else
        bbLoop env fallback P rest lines
          (chars ++ [bbRun env ch st.bold st.fontName fallback st.size st.color]) lastAlign

/-- `Text2Image.from_bbcode_text(text, fontsize, fill, spacing, align,
fontname, fallback_fonts)`. -/
def fromBBCodeText (env : BBEnv) (s : List Char) (fontsize : ℕ) (fill : ColorV)
    (spacing : ℤ) (align : HAlign) (fontname : List Char)
    (fallback : List (List Char)) : Text2Image :=
  ⟨bbLoop env fallback (bbParts s align fill fontname fontsize) s.enum [] [] align,
   spacing⟩

/-- A glyph run with prescribed width, used as concrete input for wrap
statements. -/
def wRun (q : ℚ) : GlyphRun :=
  ⟨'a', ⟨['f'], none⟩, 10, ColorV.str [], 0, none, 1, 1, q, 1⟩

/-- A concrete font handle for closed instances. -/
def dFont : FontH := ⟨['d'], none⟩

/-- A concrete environment for closed instances: one scalable font covering
everything, unit metrics. -/
def dEnv : BBEnv :=
  ⟨fun _ _ _ _ => some dFont, dFont, dFont, fun _ _ => (1, 1), fun _ _ _ _ => (1, 1)⟩

/-- A concrete registry for closed instances: each family resolves to a font
of that family name, and only family `"x"` covers anything. -/
def wReg : FontReg := ⟨fun fam _ _ => ⟨fam, none⟩, fun f _ => f.family == ['x']⟩

/-- A fixed-size font for closed instances (cf. the bundled emoji fonts,
whose `valid_size` is 137 or 109). -/
def eFont : FontH := ⟨['e'], some 2⟩

/-- An environment whose only font is fixed-size, with non-trivial metrics. -/
def eEnv : BBEnv :=
  ⟨fun _ _ _ _ => some eFont, eFont, eFont, fun _ _ => (10, 4), fun _ _ _ _ => (6, 8)⟩

/-- A one-line, one-run `Text2Image` whose width is fractional (as produced by
a fixed-size font scaled by a non-integral ratio). -/
def fracT : Text2Image := ⟨[Line.mk [wRun (3 / 2)] HAlign.left], 4⟩

/-- Soundness interface for a parameter matcher: it never moves left of the
position it is given.  Every matcher below satisfies it. -/
def PMBound (pm : ParamMatcher α) : Prop :=
  ∀ s p a q, pm s p = some (a, q) → p ≤ q

/-- Index `i` lies strictly inside an opening- or closing-tag delimiter region
of one of the spans. -/
abbrev InDelim (parts : List (TagSpan α)) (i : ℕ) : Prop :=
  ∃ sp ∈ parts, (sp.t1s ≤ i ∧ i < sp.t1e) ∨ (sp.t2s ≤ i ∧ i < sp.t2e)

/-- The four positions of a span are ordered. -/
def SpanWf (sp : TagSpan α) : Prop :=
  sp.t1s ≤ sp.t1e ∧ sp.t1e ≤ sp.t2s ∧ sp.t2s ≤ sp.t2e

/-- Yield-order relation of `parse_tag` output: an earlier span is nested in a
later span's content region, or the two are disjoint. -/
def SpanR (q p : TagSpan α) : Prop :=
  (p.t1e ≤ q.t1s ∧ q.t2e ≤ p.t2s) ∨ q.t2e ≤ p.t1s ∨ p.t2e ≤ q.t1s

theorem line_width_sum (cs : List GlyphRun) (a : HAlign) :
    (Line.mk cs a).width = (cs.map GlyphRun.width).sum := by
  rcases eq_or_ne cs [] with h | h
  · subst h
    rfl
  · simp only [Line.width]
    rw [if_neg h]

theorem pySlice_to_end (cs : List α) (a : ℕ) : pySlice cs a cs.length = cs.drop a := by
  apply List.take_of_length_le
  simp [List.length_drop]

theorem pySlice_append_drop (cs : List α) (a b : ℕ) (hab : a ≤ b) :
    pySlice cs a b ++ cs.drop b = cs.drop a := by
  have hdb : cs.drop b = (cs.drop a).drop (b - a) := by
    rw [List.drop_drop]
    congr 1
    omega
  rw [pySlice, hdb, List.take_append_drop]

theorem sliceW_single (cs : List GlyphRun) (i : ℕ) (h : i < cs.length) :
    sliceW cs i (i + 1) = (cs.get ⟨i, h⟩).width := by
  have h1 : pySlice cs i (i + 1) = [cs.get ⟨i, h⟩] := by
    rw [pySlice, Nat.add_sub_cancel_left, List.drop_eq_getElem_cons h]
    rw [List.take_succ_cons, List.take_zero, List.get_eq_getElem]
  rw [sliceW, h1]
  simp

theorem wrapGo_sound (chars : List GlyphRun) (align : HAlign) (w : ℚ)
    (H : ∀ c ∈ chars, c.width ≤ w) (hpos : 0 < chars.length) :
    ∀ fuel last idx, idx + fuel = chars.length → last ≤ idx →
      (last = idx → last = 0) →
      (last < idx → sliceW chars last idx ≤ w) →
      ∀ sub ∈ wrapGo chars align w fuel last idx, sub.width ≤ w ∧ sub.align = align := by
  intro fuel
  induction fuel with
  | zero =>
    intro last idx hlen hle h0 hw sub hsub
    simp only [wrapGo, List.mem_singleton] at hsub
    subst hsub
    refine ⟨?_, rfl⟩
    have hidx : idx = chars.length := by omega
    rcases Nat.lt_or_ge last idx with hlt | hge
    · have := hw hlt
      rw [line_width_sum]
      rw [← pySlice_to_end chars last, ← hidx]
      exact this
    · have hla : last = idx := le_antisymm (by omega) hge
      have : last = 0 := h0 hla
      omega
  | succ fuel ih =>
    intro last idx hlen hle h0 hw sub hsub
    simp only [wrapGo] at hsub
    split at hsub
    case isTrue hc =>
      rw [line_width_sum] at hc
      rcases List.mem_cons.mp hsub with hhead | htail
      · subst hhead
        refine ⟨?_, rfl⟩
        rcases Nat.lt_or_ge last idx with hlt | hge
        · rw [line_width_sum]
          exact hw hlt
        · exfalso
          have hla : last = idx := le_antisymm (by omega) hge
          have hi : idx < chars.length := by omega
          have : sliceW chars last (idx + 1) ≤ w := by
            rw [hla, sliceW_single chars idx hi]
            exact H _ (List.get_mem chars idx hi)
          exact absurd hc (not_lt.mpr this)
      · have hi : idx < chars.length := by omega
        refine ih idx (idx + 1) (by omega) (by omega) (fun hcon => by omega) ?_ sub htail
        intro _
        rw [sliceW_single chars idx hi]
        exact H _ (List.get_mem chars idx hi)
    case isFalse hc =>
      rw [line_width_sum] at hc
      refine ih last (idx + 1) (by omega) (by omega) (fun hcon => by omega) ?_ sub hsub
      intro _
      exact not_lt.mp hc

theorem wrapGo_concat (chars : List GlyphRun) (align : HAlign) (w : ℚ) :
    ∀ fuel last idx, last ≤ idx →
      (wrapGo chars align w fuel last idx).flatMap Line.chars = chars.drop last := by
  intro fuel
  induction fuel with
  | zero =>
    intro last idx _
    simp [wrapGo]
  | succ fuel ih =>
    intro last idx hle
    simp only [wrapGo]
    split
    · rw [List.flatMap_cons, ih idx (idx + 1) (by omega)]
      exact pySlice_append_drop chars last idx hle
    · exact ih last (idx + 1) (by omega)

/-- Claim C1: for a non-empty line and a maximum width at least the width of
its widest single glyph run, `Line.wrap` yields sub-lines of width at most
the maximum, their run sequences concatenate to the original run sequence,
and every sub-line inherits the original alignment. -/
theorem line_wrap_spec (l : Line) (w : ℚ) (hne : l.chars ≠ [])
    (hw : ∀ c ∈ l.chars, c.width ≤ w) :
    (∀ sub ∈ l.wrap w, sub.width ≤ w) ∧
    ((l.wrap w).flatMap Line.chars = l.chars) ∧
    (∀ sub ∈ l.wrap w, sub.align = l.align) := by
  have hpos : 0 < l.chars.length := List.length_pos.mpr hne
  have hs := wrapGo_sound l.chars l.align w hw hpos l.chars.length 0 0
    (by omega) (le_refl 0) (fun _ => rfl) (fun h => absurd h (lt_irrefl 0))
  have hc := wrapGo_concat l.chars l.align w l.chars.length 0 0 (le_refl 0)
  refine ⟨fun sub hsub => (hs sub hsub).1, ?_, fun sub hsub => (hs sub hsub).2⟩
  simpa [Line.wrap] using hc

theorem line_wrap_spec_witness :
    (∀ sub ∈ (Line.mk [wRun 2, wRun 3] HAlign.left).wrap 4, sub.width ≤ 4) ∧
    (((Line.mk [wRun 2, wRun 3] HAlign.left).wrap 4).flatMap Line.chars =
      [wRun 2, wRun 3]) ∧
    (∀ sub ∈ (Line.mk [wRun 2, wRun 3] HAlign.left).wrap 4,
      sub.align = HAlign.left) :=
  line_wrap_spec (Line.mk [wRun 2, wRun 3] HAlign.left) 4 (by decide) (by decide)

/-- Claim C8: a line with no glyph runs has width, height, ascent and descent
all zero, and wrapping it at any maximum width yields exactly one line, itself
empty. -/
theorem empty_line_spec (a : HAlign) (w : ℚ) :
    (Line.mk [] a).width = 0 ∧ (Line.mk [] a).height = 0 ∧
    (Line.mk [] a).ascent = 0 ∧ (Line.mk [] a).descent = 0 ∧
    (Line.mk [] a).wrap w = [Line.mk [] a] :=
  ⟨rfl, rfl, rfl, rfl, rfl⟩

/-- Claim C9, counterexample: in `Line([width 5, width 10]).wrap(6)` the second
glyph run (width `10 > 6`) begins a new wrap candidate and ends up alone on
the second emitted line, yet no emitted line is empty — no empty line is
emitted before the line carrying the oversized run. -/
theorem wrap_oversized_cex :
    (Line.mk [wRun 5, wRun 10] HAlign.left).wrap 6 =
      [Line.mk [wRun 5] HAlign.left, Line.mk [wRun 10] HAlign.left] ∧
    (wRun 10).width > 6 ∧
    (∀ sub ∈ (Line.mk [wRun 5, wRun 10] HAlign.left).wrap 6, sub.chars ≠ []) := by
  refine ⟨?_, by decide, ?_⟩ <;>
    norm_num [Line.wrap, wrapGo, pySlice, line_width_sum, wRun]

theorem wrapGo_first_run (chars : List GlyphRun) (align : HAlign) (w : ℚ)
    (c : GlyphRun) (rest : List GlyphRun) (hc : chars = c :: rest) :
    ∀ fuel idx, 1 ≤ idx →
      ∃ l2 ls, wrapGo chars align w fuel 0 idx = l2 :: ls ∧ l2.chars.head? = some c := by
  intro fuel
  induction fuel with
  | zero =>
    intro idx _
    exact ⟨Line.mk (chars.drop 0) align, [], rfl, by simp [hc]⟩
  | succ fuel ih =>
    intro idx hidx
    simp only [wrapGo]
    split
    · refine ⟨Line.mk (pySlice chars 0 idx) align, _, rfl, ?_⟩
      cases idx with
      | zero => omega
      | succ j => simp [pySlice, hc, List.take_succ_cons]
    · exact ih (idx + 1) (by omega)

/-- Claim C9 (amended): `Line.wrap` emits an empty line immediately before the
line carrying an oversized glyph run only when that run is the first run of
the original line — if the first run is wider than the maximum, the output
starts with an empty line followed by a line beginning with that run; in
particular a one-run line whose run is oversized wraps into exactly two
lines, an empty one and then the original.  (For an oversized run that starts
a candidate later in the line no empty line is emitted, see the
counterexample.) -/
theorem wrap_oversized_amended (l : Line) (w : ℚ) (c : GlyphRun)
    (rest : List GlyphRun) (hc : l.chars = c :: rest) (hw : c.width > w) :
    (∃ l2 ls, l.wrap w = Line.mk [] l.align :: l2 :: ls ∧ l2.chars.head? = some c) ∧
    (rest = [] → l.wrap w = [Line.mk [] l.align, Line.mk [c] l.align]) := by
  have hlen : l.chars.length = rest.length + 1 := by rw [hc]; simp
  constructor
  · rw [Line.wrap, hlen]
    simp only [wrapGo]
    have hcond : (Line.mk (pySlice l.chars 0 (0 + 1)) HAlign.left).width > w := by
      rw [line_width_sum]
      have : pySlice l.chars 0 1 = [c] := by simp [pySlice, hc]
      rw [this]
      simpa using hw
    rw [if_pos hcond]
    have hsl : pySlice l.chars 0 0 = [] := by simp [pySlice]
    rw [hsl]
    rcases wrapGo_first_run l.chars l.align w c rest hc (rest.length + 1 - 1) 1 le_rfl
      with ⟨l2, ls, heq, hhead⟩
    refine ⟨l2, ls, ?_, hhead⟩
    simp only [Nat.add_sub_cancel] at heq ⊢
    rw [heq]
  · intro hres
    subst hres
    rw [Line.wrap, hlen]
    simp only [wrapGo]
    have hcond : (Line.mk (pySlice l.chars 0 (0 + 1)) HAlign.left).width > w := by
      rw [line_width_sum]
      have : pySlice l.chars 0 1 = [c] := by simp [pySlice, hc]
      rw [this]
      simpa using hw
    rw [if_pos hcond]
    simp [pySlice, hc]

theorem wrap_oversized_amended_witness :
    (∃ l2 ls, (Line.mk [wRun 7] HAlign.right).wrap 5 =
        Line.mk [] HAlign.right :: l2 :: ls ∧ l2.chars.head? = some (wRun 7)) ∧
    (([] : List GlyphRun) = [] → (Line.mk [wRun 7] HAlign.right).wrap 5 =
        [Line.mk [] HAlign.right, Line.mk [wRun 7] HAlign.right]) :=
  wrap_oversized_amended (Line.mk [wRun 7] HAlign.right) 5 (wRun 7) [] rfl (by decide)

theorem gpfLoop_find (reg : FontReg) (c : Char) (st wt : List Char) :
    ∀ fb : List (List Char),
      gpfLoop reg c st wt [] fb =
        (fb.find? fun fam => reg.hasChar (reg.find fam st wt) c).map
          fun fam => reg.find fam st wt := by
  intro fb
  induction fb with
  | nil => rfl
  | cons fam rest ih =>
    simp only [gpfLoop]
    rw [if_neg (List.not_mem_nil _)]
    by_cases hc2 : reg.hasChar (reg.find fam st wt) c
    · rw [if_pos hc2,
        @List.find?_cons_of_pos _ (fun fam => reg.hasChar (reg.find fam st wt) c) fam rest hc2]
      rfl
    · rw [if_neg hc2,
        @List.find?_cons_of_neg _ (fun fam => reg.hasChar (reg.find fam st wt) c) fam rest hc2,
        ih]

/-- Claim C4: `get_proper_font` returns the font of the first family in the
effective `[preferred] + fallback` list whose resolved font covers the
character; a covered preferred font is returned directly, and when no listed
family covers the character the first family's font is returned regardless of
coverage. -/
theorem get_proper_font_spec (reg : FontReg) (c : Char) (st wt fontname : List Char)
    (fallback defaults : List (List Char)) :
    (getProperFont reg c st wt fontname fallback defaults =
      match (gpfEffectiveList fontname fallback defaults).find?
          (fun fam => reg.hasChar (reg.find fam st wt) c) with
      | some fam => some (reg.find fam st wt)
      | none => (gpfEffectiveList fontname fallback defaults).head?.map
          fun f0 => reg.find f0 st wt) ∧
    (fontname.isEmpty = false → reg.hasChar (reg.find fontname st wt) c = true →
      getProperFont reg c st wt fontname fallback defaults =
        some (reg.find fontname st wt)) ∧
    ((∀ fam ∈ gpfEffectiveList fontname fallback defaults,
        reg.hasChar (reg.find fam st wt) c = false) →
      getProperFont reg c st wt fontname fallback defaults =
        (gpfEffectiveList fontname fallback defaults).head?.map
          fun f0 => reg.find f0 st wt) := by
  have hmain : getProperFont reg c st wt fontname fallback defaults =
      match (gpfEffectiveList fontname fallback defaults).find?
          (fun fam => reg.hasChar (reg.find fam st wt) c) with
      | some fam => some (reg.find fam st wt)
      | none => (gpfEffectiveList fontname fallback defaults).head?.map
          fun f0 => reg.find f0 st wt := by
    show (getProperFontRun reg c st wt fontname ⟨fallback, defaults⟩).1 = _
    simp only [getProperFontRun, gpfResult, gpfLoop_find]
    cases h : (gpfEffectiveList fontname fallback defaults).find?
        (fun fam => reg.hasChar (reg.find fam st wt) c) <;> simp [h]
  refine ⟨hmain, ?_, ?_⟩
  · intro hfe hcov
    rw [hmain]
    have heff : gpfEffectiveList fontname fallback defaults =
        fontname :: (if fallback.isEmpty then defaults else fallback) := by
      simp [gpfEffectiveList, hfe]
    rw [heff,
      @List.find?_cons_of_pos _ (fun fam => reg.hasChar (reg.find fam st wt) c) fontname _ hcov]
  · intro hnone
    rw [hmain, List.find?_eq_none.mpr fun fam hm => by simp [hnone fam hm]]

theorem get_proper_font_spec_witness :
    ((['x'] : List Char).isEmpty = false ∧
      wReg.hasChar (wReg.find ['x'] [] []) 'q' = true) ∧
    getProperFont wReg 'q' [] [] ['x'] [['y']] [] = some (wReg.find ['x'] [] []) :=
  ⟨⟨by decide, by decide⟩,
    (get_proper_font_spec wReg 'q' [] [] ['x'] [['y']] []).2.1 (by decide) (by decide)⟩

theorem gpfLoop_cons_dup (reg : FontReg) (c : Char) (st wt : List Char)
    (n : List Char) (t : List (List Char)) :
    gpfLoop reg c st wt [] (n :: n :: t) = gpfLoop reg c st wt [] (n :: t) := by
  by_cases h : reg.hasChar (reg.find n st wt) c
  · simp [gpfLoop, h]
  · simp [gpfLoop, h]

theorem gpfResult_cons_dup (reg : FontReg) (c : Char) (st wt : List Char)
    (n : List Char) (t : List (List Char)) :
    gpfResult reg c st wt (n :: n :: t) = gpfResult reg c st wt (n :: t) := by
  unfold gpfResult
  rw [gpfLoop_cons_dup]
  cases gpfLoop reg c st wt [] (n :: t) <;> rfl

theorem gpfResult_replicate (reg : FontReg) (c : Char) (st wt : List Char)
    (n : List Char) (t : List (List Char)) :
    ∀ k, gpfResult reg c st wt (n :: (List.replicate k n ++ t)) =
      gpfResult reg c st wt (n :: t) := by
  intro k
  induction k with
  | zero => rfl
  | succ k ih =>
    have hr : n :: (List.replicate (k + 1) n ++ t) =
        n :: n :: (List.replicate k n ++ t) := by
      simp [List.replicate_succ]
    rw [hr, gpfResult_cons_dup, ih]

theorem gpfIter_caller (reg : FontReg) (c : Char) (st wt fontname : List Char)
    (hfn : fontname.isEmpty = false) :
    ∀ (k : ℕ) (L D : List (List Char)), L ≠ [] →
      gpfIter reg c st wt fontname k ⟨L, D⟩ = ⟨List.replicate k fontname ++ L, D⟩ := by
  intro k
  induction k with
  | zero => intro L D _; rfl
  | succ k ih =>
    intro L D hL
    have hLe : L.isEmpty = false := by
      cases L with
      | nil => exact absurd rfl hL
      | cons a l => rfl
    have hstep : (getProperFontRun reg c st wt fontname ⟨L, D⟩).2 =
        ⟨fontname :: L, D⟩ := by
      simp [getProperFontRun, hfn, hLe, gpfEffectiveList]
    show gpfIter reg c st wt fontname k (getProperFontRun reg c st wt fontname ⟨L, D⟩).2 = _
    rw [hstep, ih (fontname :: L) D (List.cons_ne_nil _ _)]
    have : List.replicate k fontname ++ fontname :: L =
        List.replicate (k + 1) fontname ++ L := by
      rw [List.replicate_succ', List.append_assoc]
      rfl
    rw [this]

theorem gpfIter_defaults (reg : FontReg) (c : Char) (st wt fontname : List Char)
    (hfn : fontname.isEmpty = false) :
    ∀ (k : ℕ) (D : List (List Char)),
      gpfIter reg c st wt fontname k ⟨[], D⟩ =
        ⟨[], List.replicate k fontname ++ D⟩ := by
  intro k
  induction k with
  | zero => intro D; rfl
  | succ k ih =>
    intro D
    have hstep : (getProperFontRun reg c st wt fontname ⟨[], D⟩).2 =
        ⟨[], fontname :: D⟩ := by
      simp [getProperFontRun, hfn, gpfEffectiveList]
    show gpfIter reg c st wt fontname k (getProperFontRun reg c st wt fontname ⟨[], D⟩).2 = _
    rw [hstep, ih (fontname :: D)]
    have : List.replicate k fontname ++ fontname :: D =
        List.replicate (k + 1) fontname ++ D := by
      rw [List.replicate_succ', List.append_assoc]
      rfl
    rw [this]

/-- Claim C10: with a non-empty preferred font name, each `get_proper_font`
call prepends the name to the caller's `fallback_fonts` list in place (or, for
an empty argument, to the shared default list), so repeated identical calls
accumulate one leading entry per call, while the font each call selects is
unchanged by the accumulation. -/
theorem get_proper_font_mutation (reg : FontReg) (c : Char)
    (st wt fontname : List Char) (L D : List (List Char))
    (hfn : fontname.isEmpty = false) :
    (L ≠ [] → ∀ k : ℕ, gpfIter reg c st wt fontname k ⟨L, D⟩ =
        ⟨List.replicate k fontname ++ L, D⟩) ∧
    (∀ k : ℕ, gpfIter reg c st wt fontname k ⟨[], D⟩ =
        ⟨[], List.replicate k fontname ++ D⟩) ∧
    (∀ k : ℕ,
      (getProperFontRun reg c st wt fontname
          (gpfIter reg c st wt fontname k ⟨L, D⟩)).1 =
        (getProperFontRun reg c st wt fontname ⟨L, D⟩).1) := by
  refine ⟨fun hL k => gpfIter_caller reg c st wt fontname hfn k L D hL,
    fun k => gpfIter_defaults reg c st wt fontname hfn k D, ?_⟩
  intro k
  rcases eq_or_ne L [] with hL | hL
  · subst hL
    rw [gpfIter_defaults reg c st wt fontname hfn k D]
    show gpfResult reg c st wt
        (gpfEffectiveList fontname [] (List.replicate k fontname ++ D)) =
      gpfResult reg c st wt (gpfEffectiveList fontname [] D)
    have he1 : gpfEffectiveList fontname [] (List.replicate k fontname ++ D) =
        fontname :: (List.replicate k fontname ++ D) := by
      simp [gpfEffectiveList, hfn]
    have he2 : gpfEffectiveList fontname [] D = fontname :: D := by
      simp [gpfEffectiveList, hfn]
    rw [he1, he2]
    exact gpfResult_replicate reg c st wt fontname D k
  · rw [gpfIter_caller reg c st wt fontname hfn k L D hL]
    have hLe : L.isEmpty = false := by
      cases L with
      | nil => exact absurd rfl hL
      | cons a l => rfl
    have hRe : (List.replicate k fontname ++ L).isEmpty = false := by
      cases h : List.replicate k fontname ++ L with
      | nil => exact absurd (List.append_eq_nil.mp h).2 hL
      | cons a l => rfl
    show gpfResult reg c st wt
        (gpfEffectiveList fontname (List.replicate k fontname ++ L) D) =
      gpfResult reg c st wt (gpfEffectiveList fontname L D)
    have he1 : gpfEffectiveList fontname (List.replicate k fontname ++ L) D =
        fontname :: (List.replicate k fontname ++ L) := by
      simp [gpfEffectiveList, hfn, hRe]
    have he2 : gpfEffectiveList fontname L D = fontname :: L := by
      simp [gpfEffectiveList, hfn, hLe]
    rw [he1, he2]
    exact gpfResult_replicate reg c st wt fontname L k

theorem get_proper_font_mutation_witness :
    ((['x'] : List Char).isEmpty = false ∧ ([['y']] : List (List Char)) ≠ []) ∧
    (gpfIter wReg 'q' [] [] ['x'] 2 ⟨[['y']], []⟩ =
      ⟨List.replicate 2 ['x'] ++ [['y']], []⟩) ∧
    (gpfIter wReg 'q' [] [] ['x'] 2 ⟨[], []⟩ = ⟨[], List.replicate 2 ['x'] ++ []⟩) ∧
    ((getProperFontRun wReg 'q' [] [] ['x']
        (gpfIter wReg 'q' [] [] ['x'] 2 ⟨[['y']], []⟩)).1 =
      (getProperFontRun wReg 'q' [] [] ['x'] ⟨[['y']], []⟩).1) :=
  ⟨⟨by decide, by decide⟩,
    (get_proper_font_mutation wReg 'q' [] [] ['x'] [['y']] [] (by decide)).1 (by decide) 2,
    (get_proper_font_mutation wReg 'q' [] [] ['x'] [['y']] [] (by decide)).2.1 2,
    (get_proper_font_mutation wReg 'q' [] [] ['x'] [['y']] [] (by decide)).2.2 2⟩

/-- Claim C5: for a font with a non-zero fixed `valid_size`, every metric of a
constructed glyph run equals the metric measured at `valid_size` times
`fontsize / valid_size` — each metric is linear in the requested size, so the
ratio of a metric at `fontsize` to the same metric at `2 * fontsize` is
exactly `1/2` (in the exact rational model; Python floats round). -/
theorem fixed_size_metrics (env : BBEnv) (c : Char) (font : FontH)
    (fill : ColorV) (sw : ℤ) (sfill : Option ColorV) (v : ℕ)
    (hv : font.validSize = some v) (hv0 : v ≠ 0) :
    (∀ fs : ℕ,
      (mkChar env c font fs fill sw sfill).ascent =
          ((env.getmetrics font v).1 : ℚ) * ((fs : ℚ) / (v : ℚ)) ∧
      (mkChar env c font fs fill sw sfill).descent =
          ((env.getmetrics font v).2 : ℚ) * ((fs : ℚ) / (v : ℚ)) ∧
      (mkChar env c font fs fill sw sfill).width =
          ((env.getsize font v c sw).1 : ℚ) * ((fs : ℚ) / (v : ℚ)) ∧
      (mkChar env c font fs fill sw sfill).height =
          ((env.getsize font v c sw).2 : ℚ) * ((fs : ℚ) / (v : ℚ))) ∧
    (∀ fs : ℕ, 0 < fs → (env.getmetrics font v).1 ≠ 0 →
      (mkChar env c font fs fill sw sfill).ascent /
        (mkChar env c font (2 * fs) fill sw sfill).ascent = 1 / 2) ∧
    (∀ fs : ℕ, 0 < fs → (env.getsize font v c sw).1 ≠ 0 →
      (mkChar env c font fs fill sw sfill).width /
        (mkChar env c font (2 * fs) fill sw sfill).width = 1 / 2) := by
  have hm : ∀ fs : ℕ,
      (mkChar env c font fs fill sw sfill).ascent =
          ((env.getmetrics font v).1 : ℚ) * ((fs : ℚ) / (v : ℚ)) ∧
      (mkChar env c font fs fill sw sfill).descent =
          ((env.getmetrics font v).2 : ℚ) * ((fs : ℚ) / (v : ℚ)) ∧
      (mkChar env c font fs fill sw sfill).width =
          ((env.getsize font v c sw).1 : ℚ) * ((fs : ℚ) / (v : ℚ)) ∧
      (mkChar env c font fs fill sw sfill).height =
          ((env.getsize font v c sw).2 : ℚ) * ((fs : ℚ) / (v : ℚ)) := by
    intro fs
    refine ⟨?_, ?_, ?_, ?_⟩ <;> simp [mkChar, hv, optTruthy, hv0]
  have hvq : ((v : ℕ) : ℚ) ≠ 0 := Nat.cast_ne_zero.mpr hv0
  refine ⟨hm, ?_, ?_⟩
  · intro fs hfs ha
    have hfq : ((fs : ℕ) : ℚ) ≠ 0 := Nat.cast_ne_zero.mpr hfs.ne'
    have haq : (((env.getmetrics font v).1 : ℤ) : ℚ) ≠ 0 := Int.cast_ne_zero.mpr ha
    rw [(hm fs).1, (hm (2 * fs)).1]
    push_cast
    field_simp
    ring
  · intro fs hfs hwz
    have hfq : ((fs : ℕ) : ℚ) ≠ 0 := Nat.cast_ne_zero.mpr hfs.ne'
    have haq : (((env.getsize font v c sw).1 : ℤ) : ℚ) ≠ 0 := Int.cast_ne_zero.mpr hwz
    rw [(hm fs).2.2.1, (hm (2 * fs)).2.2.1]
    push_cast
    field_simp
    ring

theorem fixed_size_metrics_witness :
    (eFont.validSize = some 2 ∧ (2 : ℕ) ≠ 0 ∧ (0 : ℕ) < 3 ∧
      ((eEnv.getmetrics eFont 2).1 ≠ 0) ∧ ((eEnv.getsize eFont 2 'a' 0).1 ≠ 0)) ∧
    ((mkChar eEnv 'a' eFont 3 (ColorV.str []) 0 none).ascent =
        ((eEnv.getmetrics eFont 2).1 : ℚ) * ((3 : ℚ) / (2 : ℚ)) ∧
      (mkChar eEnv 'a' eFont 3 (ColorV.str []) 0 none).descent =
        ((eEnv.getmetrics eFont 2).2 : ℚ) * ((3 : ℚ) / (2 : ℚ)) ∧
      (mkChar eEnv 'a' eFont 3 (ColorV.str []) 0 none).width =
        ((eEnv.getsize eFont 2 'a' 0).1 : ℚ) * ((3 : ℚ) / (2 : ℚ)) ∧
      (mkChar eEnv 'a' eFont 3 (ColorV.str []) 0 none).height =
        ((eEnv.getsize eFont 2 'a' 0).2 : ℚ) * ((3 : ℚ) / (2 : ℚ))) ∧
    ((mkChar eEnv 'a' eFont 3 (ColorV.str []) 0 none).ascent /
        (mkChar eEnv 'a' eFont (2 * 3) (ColorV.str []) 0 none).ascent = 1 / 2) ∧
    ((mkChar eEnv 'a' eFont 3 (ColorV.str []) 0 none).width /
        (mkChar eEnv 'a' eFont (2 * 3) (ColorV.str []) 0 none).width = 1 / 2) :=
  ⟨⟨rfl, by decide, by decide, by decide, by decide⟩,
    by
      have h3 : ((3 : ℕ) : ℚ) = (3 : ℚ) := by norm_num
      have := (fixed_size_metrics eEnv 'a' eFont (ColorV.str []) 0 none 2 rfl
        (by decide)).1 3
      rwa [h3] at this,
    (fixed_size_metrics eEnv 'a' eFont (ColorV.str []) 0 none 2 rfl (by decide)).2.1 3
      (by decide) (by decide),
    (fixed_size_metrics eEnv 'a' eFont (ColorV.str []) 0 none 2 rfl (by decide)).2.2 3
      (by decide) (by decide)⟩

theorem foldl_max_spec (l : List ℚ) : ∀ a : ℚ,
    a ≤ l.foldl max a ∧ (∀ x ∈ l, x ≤ l.foldl max a) ∧
      (l.foldl max a = a ∨ l.foldl max a ∈ l) := by
  induction l with
  | nil =>
    intro a
    exact ⟨le_refl a, by simp, Or.inl rfl⟩
  | cons b t ih =>
    intro a
    simp only [List.foldl_cons]
    obtain ⟨h1, h2, h3⟩ := ih (max a b)
    refine ⟨le_trans (le_max_left a b) h1, ?_, ?_⟩
    · intro x hx
      rcases List.mem_cons.mp hx with hxb | hxt
      · subst hxb
        exact le_trans (le_max_right a x) h1
      · exact h2 x hxt
    · rcases h3 with h | h
      · rcases max_choice a b with hab | hab
        · exact Or.inl (by rw [h, hab])
        · exact Or.inr (by rw [h, hab]; exact List.mem_cons_self _ _)
      · exact Or.inr (List.mem_cons_of_mem _ h)

theorem listMax_spec (xs : List ℚ) (hne : xs ≠ []) :
    (∀ x ∈ xs, x ≤ listMax xs) ∧ listMax xs ∈ xs := by
  cases xs with
  | nil => exact absurd rfl hne
  | cons a l =>
    obtain ⟨h1, h2, h3⟩ := foldl_max_spec l a
    simp only [listMax]
    refine ⟨?_, ?_⟩
    · intro x hx
      rcases List.mem_cons.mp hx with hxa | hxl
      · subst hxa
        exact h1
      · exact h2 x hxl
    · rcases h3 with h | h
      · rw [h]
        exact List.mem_cons_self _ _
      · exact List.mem_cons_of_mem _ h

/-- Claim C6 (amended): for a `Text2Image` with at least one line, its width
is the maximum line width and its height is the sum of the lines' ascents
plus `spacing * (number of lines - 1)` plus the last line's descent; the
surface allocated by `to_image` measures `int(width + 2 * padding.x)` by
`int(height + 2 * padding.y)` — equal to `width + 2 * padding.x` etc. only
when those quantities are integral, since Python's `int()` truncates (see the
counterexample for a fractional width). -/
theorem text2image_size_spec (t : Text2Image) (padding : ℤ × ℤ)
    (hne : t.lines ≠ []) :
    (∀ l ∈ t.lines, l.width ≤ t.width) ∧ (∃ l ∈ t.lines, t.width = l.width) ∧
    (∀ last, t.lines.getLast? = some last →
      t.height = (t.lines.map Line.ascent).sum
        + (t.spacing : ℚ) * (((t.lines.length - 1 : ℕ) : ℤ) : ℚ) + last.descent) ∧
    t.toImageSize padding =
      (pyInt (t.width + (padding.1 : ℚ) * 2), pyInt (t.height + (padding.2 : ℚ) * 2)) := by
  have hmap : t.lines.map Line.width ≠ [] := by simp [hne]
  obtain ⟨h1, h2⟩ := listMax_spec (t.lines.map Line.width) hmap
  have hw : t.width = listMax (t.lines.map Line.width) := by
    simp only [Text2Image.width]
    rw [if_neg hne]
  refine ⟨?_, ?_, ?_, rfl⟩
  · intro l hl
    rw [hw]
    exact h1 _ (List.mem_map_of_mem _ hl)
  · rw [hw]
    rcases List.mem_map.mp h2 with ⟨l, hl, hval⟩
    exact ⟨l, hl, hval.symm⟩
  · intro last hlast
    simp only [Text2Image.height, hlast]
    ring

theorem text2image_size_spec_witness :
    (([Line.mk [] HAlign.left] : List Line) ≠ []) ∧
    ((∀ l ∈ (⟨[Line.mk [] HAlign.left], 4⟩ : Text2Image).lines,
        l.width ≤ (⟨[Line.mk [] HAlign.left], 4⟩ : Text2Image).width) ∧
      (∃ l ∈ (⟨[Line.mk [] HAlign.left], 4⟩ : Text2Image).lines,
        (⟨[Line.mk [] HAlign.left], 4⟩ : Text2Image).width = l.width) ∧
      (∀ last, (⟨[Line.mk [] HAlign.left], 4⟩ : Text2Image).lines.getLast? = some last →
        (⟨[Line.mk [] HAlign.left], 4⟩ : Text2Image).height =
          ((⟨[Line.mk [] HAlign.left], 4⟩ : Text2Image).lines.map Line.ascent).sum
            + ((4 : ℤ) : ℚ) *
              ((((⟨[Line.mk [] HAlign.left], 4⟩ : Text2Image).lines.length - 1 : ℕ) : ℤ) : ℚ)
            + last.descent) ∧
      (⟨[Line.mk [] HAlign.left], 4⟩ : Text2Image).toImageSize (1, 2) =
        (pyInt ((⟨[Line.mk [] HAlign.left], 4⟩ : Text2Image).width + ((1 : ℤ) : ℚ) * 2),
         pyInt ((⟨[Line.mk [] HAlign.left], 4⟩ : Text2Image).height + ((2 : ℤ) : ℚ) * 2))) :=
  ⟨by decide, text2image_size_spec ⟨[Line.mk [] HAlign.left], 4⟩ (1, 2) (by decide)⟩

/-- Claim C6, counterexample: a `Text2Image` whose single line holds one run
of width `3/2` has width `3/2`, but `to_image` allocates a surface of width
`int(3/2 + 0) = 1 ≠ 3/2` — the allocated size is the truncation, not exactly
`width + 2 * padding.x`. -/
theorem text2image_alloc_cex :
    ((fracT.toImageSize (0, 0)).1 : ℚ) ≠ fracT.width + ((0 : ℤ) : ℚ) * 2 := by
  have hw : fracT.width = 3 / 2 := by
    norm_num [fracT, Text2Image.width, listMax, line_width_sum, wRun]
  have hsize : (fracT.toImageSize (0, 0)).1 = pyInt (fracT.width + ((0 : ℤ) : ℚ) * 2) := rfl
  rw [hsize, hw]
  norm_num [pyInt]

theorem length_pySlice (s : List α) (a b : ℕ) :
    (pySlice s a b).length = min (b - a) (s.length - a) := by
  simp [pySlice, List.length_take, List.length_drop]

theorem litAt_spec {s w : List Char} {p : ℕ} (h : litAt s p w = true) :
    pySlice s p (p + w.length) = w :=
  of_decide_eq_true h

theorem litAt_length {s w : List Char} {p : ℕ} (hw : w ≠ [])
    (h : litAt s p w = true) : p + w.length ≤ s.length := by
  have hlen : (pySlice s p (p + w.length)).length = w.length := by
    rw [litAt_spec h]
  rw [length_pySlice] at hlen
  have hwpos : 0 < w.length := List.length_pos.mpr hw
  omega

theorem lastCloseAt_spec {s close : List Char} {start q : ℕ} (hne : close ≠ [])
    (h : lastCloseAt s close start = some q) :
    start ≤ q ∧ q + close.length ≤ s.length := by
  have hmem := List.mem_of_mem_getLast? h
  rw [List.mem_filter] at hmem
  obtain ⟨-, hcond⟩ := hmem
  rw [Bool.and_eq_true] at hcond
  exact ⟨of_decide_eq_true hcond.1, litAt_length hne hcond.2⟩

theorem matchAt_spec {name : List Char} {pm : ParamMatcher α} (hpm : PMBound pm)
    {s : List Char} {p : ℕ} {m : RawMatch α} (h : matchAt name pm s p = some m) :
    m.ts = p ∧ p < m.cs ∧ m.cs ≤ m.ce ∧ m.ce < m.te ∧ m.te ≤ s.length := by
  unfold matchAt at h
  split at h
  case isFalse => exact absurd h (by simp)
  case isTrue hopen =>
    cases hpm' : pm s (p + 1 + name.length) with
    | none => rw [hpm'] at h; exact absurd h (by simp)
    | some aq =>
      rw [hpm'] at h
      obtain ⟨a, q⟩ := aq
      dsimp only at h
      have hq : p + 1 + name.length ≤ q := hpm s (p + 1 + name.length) a q hpm'
      by_cases hbr : litAt s q [']'] = true
      case neg =>
        rw [if_neg hbr] at h
        exact absurd h (by simp)
      case pos =>
        rw [if_pos hbr] at h
        cases hlast : lastCloseAt s ('[' :: '/' :: (name ++ [']'])) (q + 1) with
        | none => rw [hlast] at h; exact absurd h (by simp)
        | some ce =>
          rw [hlast] at h
          obtain ⟨hcl1, hcl2⟩ :=
            lastCloseAt_spec (by simp) hlast
          have hclen : ('[' :: '/' :: (name ++ [']'])).length = name.length + 3 := by
            simp
          rw [hclen] at hcl2
          cases h
          dsimp only
          refine ⟨rfl, by omega, by omega, by omega, by omega⟩

theorem finditer_spec {name : List Char} {pm : ParamMatcher α} (hpm : PMBound pm)
    {s : List Char} :
    ∀ (fuel p : ℕ) (m : RawMatch α), m ∈ finditerF name pm s fuel p →
      matchAt name pm s m.ts = some m ∧ p ≤ m.ts := by
  intro fuel
  induction fuel with
  | zero => intro p m hm; exact absurd hm (by simp [finditerF])
  | succ fuel ih =>
    intro p m hm
    rw [finditerF] at hm
    cases hmat : matchAt name pm s p with
    | some m0 =>
      rw [hmat] at hm
      rcases List.mem_cons.mp hm with hm0 | hmr
      · subst hm0
        have hts := (matchAt_spec hpm hmat).1
        rw [hts]
        exact ⟨hmat, le_refl p⟩
      · obtain ⟨hma, hle⟩ := ih m0.te m hmr
        obtain ⟨-, h2, h3, h4, -⟩ := matchAt_spec hpm hmat
        exact ⟨hma, by omega⟩
    | none =>
      rw [hmat] at hm
      obtain ⟨hma, hle⟩ := ih (p + 1) m hm
      exact ⟨hma, by omega⟩

theorem finditer_chain {name : List Char} {pm : ParamMatcher α} (hpm : PMBound pm)
    {s : List Char} :
    ∀ fuel p : ℕ,
      List.Pairwise (fun a b => a.te ≤ b.ts) (finditerF name pm s fuel p) := by
  intro fuel
  induction fuel with
  | zero => intro p; simp [finditerF]
  | succ fuel ih =>
    intro p
    rw [finditerF]
    cases hmat : matchAt name pm s p with
    | some m0 =>
      rw [List.pairwise_cons]
      exact ⟨fun b hb => (finditer_spec hpm fuel m0.te b hb).2, ih m0.te⟩
    | none => exact ih (p + 1)

theorem parse_bounds {name : List Char} {pm : ParamMatcher α} (hpm : PMBound pm) :
    ∀ (fuel : ℕ) (s : List Char) (off : ℕ),
      ∀ sp ∈ parseTagF name pm fuel s off,
        off ≤ sp.t1s ∧ sp.t1s < sp.t1e ∧ sp.t1e ≤ sp.t2s ∧ sp.t2s < sp.t2e ∧
          sp.t2e ≤ off + s.length := by
  intro fuel
  induction fuel with
  | zero => intro s off sp hsp; exact absurd hsp (by simp [parseTagF])
  | succ fuel ih =>
    intro s off sp hsp
    rw [parseTagF] at hsp
    rcases List.mem_flatMap.mp hsp with ⟨m, hmem, hsp2⟩
    obtain ⟨hmat, -⟩ := finditer_spec hpm _ _ m hmem
    obtain ⟨-, h2, h3, h4, h5⟩ := matchAt_spec hpm hmat
    rcases List.mem_append.mp hsp2 with hchild | hself
    · obtain ⟨b1, b2, b3, b4, b5⟩ := ih _ _ sp hchild
      have hlen := length_pySlice s m.cs m.ce
      omega
    · rcases List.mem_singleton.mp hself with rfl
      dsimp [mkPart]
      omega

theorem parse_pairwise {name : List Char} {pm : ParamMatcher α} (hpm : PMBound pm) :
    ∀ (fuel : ℕ) (s : List Char) (off : ℕ),
      List.Pairwise SpanR (parseTagF name pm fuel s off) := by
  intro fuel
  induction fuel with
  | zero => intro s off; simp [parseTagF]
  | succ fuel ih =>
    intro s off
    rw [parseTagF]
    have hgb : ∀ m : RawMatch α, matchAt name pm s m.ts = some m →
        ∀ sp ∈ parseTagF name pm fuel (pySlice s m.cs m.ce) (off + m.cs) ++
          [mkPart off m],
          off + m.ts ≤ sp.t1s ∧ sp.t2e ≤ off + m.te := by
      intro m hm sp hsp
      obtain ⟨-, h2, h3, h4, h5⟩ := matchAt_spec hpm hm
      rcases List.mem_append.mp hsp with hchild | hself
      · obtain ⟨b1, b2, b3, b4, b5⟩ := parse_bounds hpm fuel _ _ sp hchild
        have hlen := length_pySlice s m.cs m.ce
        constructor <;> omega
      · rcases List.mem_singleton.mp hself with rfl
        dsimp [mkPart]
        omega
    have main : ∀ ms : List (RawMatch α),
        (∀ m ∈ ms, matchAt name pm s m.ts = some m) →
        List.Pairwise (fun a b => a.te ≤ b.ts) ms →
        List.Pairwise SpanR (ms.flatMap fun m =>
          parseTagF name pm fuel (pySlice s m.cs m.ce) (off + m.cs) ++
            [mkPart off m]) := by
      intro ms
      induction ms with
      | nil => intro _ _; simp
      | cons m ms' ihm =>
        intro hmat hpw
        rw [List.flatMap_cons, List.pairwise_append]
        rw [List.pairwise_cons] at hpw
        have hmhead := hmat m (List.mem_cons_self _ _)
        refine ⟨?_, ihm (fun x hx => hmat x (List.mem_cons_of_mem _ hx)) hpw.2, ?_⟩
        · rw [List.pairwise_append]
          refine ⟨ih _ _, by simp, ?_⟩
          intro x hx y hy
          rcases List.mem_singleton.mp hy with rfl
          obtain ⟨b1, b2, b3, b4, b5⟩ := parse_bounds hpm fuel _ _ x hx
          obtain ⟨-, h2, h3, h4, h5⟩ := matchAt_spec hpm hmhead
          have hlen := length_pySlice s m.cs m.ce
          left
          dsimp [mkPart]
          constructor <;> omega
        · intro x hx y hy
          rcases List.mem_flatMap.mp hy with ⟨m', hm', hy2⟩
          have hxb := hgb m hmhead x hx
          have hyb := hgb m' (hmat m' (List.mem_cons_of_mem _ hm')) y hy2
          have hchain := hpw.1 m' hm'
          right
          left
          omega
    exact main _ (fun m hm => (finditer_spec hpm _ _ m hm).1) (finditer_chain hpm _ _)

theorem split_wf {name : List Char} {pm : ParamMatcher α} (hpm : PMBound pm)
    (d : α) (s : List Char) : ∀ sp ∈ splitTextF name pm d s, SpanWf sp := by
  intro sp hsp
  rcases List.mem_append.mp hsp with h | h
  · obtain ⟨b1, b2, b3, b4, b5⟩ := parse_bounds hpm _ _ _ sp h
    exact ⟨by omega, by omega, by omega⟩
  · rcases List.mem_singleton.mp h with rfl
    exact ⟨le_refl 0, Nat.zero_le _, le_refl _⟩

theorem split_pairwise {name : List Char} {pm : ParamMatcher α} (hpm : PMBound pm)
    (d : α) (s : List Char) : List.Pairwise SpanR (splitTextF name pm d s) := by
  rw [splitTextF, List.pairwise_append]
  refine ⟨parse_pairwise hpm _ _ _, by simp, ?_⟩
  intro q hq y hy
  rcases List.mem_singleton.mp hy with rfl
  obtain ⟨b1, b2, b3, b4, b5⟩ := parse_bounds hpm _ _ _ q hq
  left
  dsimp only
  exact ⟨by omega, by omega⟩

theorem getParam_delim_none :
    ∀ parts : List (TagSpan α), (∀ sp ∈ parts, SpanWf sp) →
      List.Pairwise SpanR parts →
      ∀ p ∈ parts, ∀ i : ℕ,
        ((p.t1s ≤ i ∧ i < p.t1e) ∨ (p.t2s ≤ i ∧ i < p.t2e)) →
        getParam parts i = none := by
  intro parts
  induction parts with
  | nil => intro _ _ p hp; exact absurd hp (by simp)
  | cons q rest ihp =>
    intro hwf hpw p hp i hdel
    rw [List.pairwise_cons] at hpw
    obtain ⟨v1, v2, v3⟩ := hwf q (List.mem_cons_self _ _)
    by_cases c1 : q.t1s ≠ q.t1e ∧ q.t1s ≤ i ∧ i < q.t1e
    · simp only [getParam, if_pos c1]
    · by_cases c2 : q.t2s ≠ q.t2e ∧ q.t2s ≤ i ∧ i < q.t2e
      · simp only [getParam, if_neg c1, if_pos c2]
      · by_cases c3 : q.t1e ≠ q.t2s ∧ q.t1e ≤ i ∧ i < q.t2s
        · exfalso
          obtain ⟨c31, c32, c33⟩ := c3
          rcases List.mem_cons.mp hp with rfl | hpr
          · rcases hdel with ⟨hd1, hd2⟩ | ⟨hd1, hd2⟩ <;> omega
          · have hr := hpw.1 p hpr
            obtain ⟨w1, w2, w3⟩ := hwf p (List.mem_cons_of_mem _ hpr)
            rcases hdel with ⟨hd1, hd2⟩ | ⟨hd1, hd2⟩ <;>
              rcases hr with ⟨hr1, hr2⟩ | hr | hr <;> omega
        · simp only [getParam, if_neg c1, if_neg c2, if_neg c3]
          rcases List.mem_cons.mp hp with rfl | hpr
          · exfalso
            rcases hdel with ⟨hd1, hd2⟩ | ⟨hd1, hd2⟩
            · exact c1 ⟨by omega, hd1, hd2⟩
            · exact c2 ⟨by omega, hd1, hd2⟩
          · exact ihp (fun sp hsp => hwf sp (List.mem_cons_of_mem _ hsp)) hpw.2
              p hpr i hdel

theorem getParam_none_of_inDelim {name : List Char} {pm : ParamMatcher α}
    (hpm : PMBound pm) (d : α) (s : List Char) (i : ℕ)
    (h : InDelim (splitTextF name pm d s) i) :
    getParam (splitTextF name pm d s) i = none := by
  rcases h with ⟨p, hp, hdel⟩
  exact getParam_delim_none _ (split_wf hpm d s) (split_pairwise hpm d s) p hp i hdel

theorem alignPM_bound : PMBound alignPM := by
  intro s p a q h
  unfold alignPM at h
  split_ifs at h
  · cases h; omega
  · cases h; omega
  · cases h; omega

theorem colorPM_bound : PMBound colorPM := by
  intro s p a q h
  unfold colorPM at h
  split_ifs at h
  · cases h; omega
  · rcases List.exists_of_findSome?_eq_some h with ⟨nm, hnm, hf⟩
    split_ifs at hf
    cases hf
    omega

theorem fontPM_bound : PMBound fontPM := by
  intro s p a q h
  unfold fontPM at h
  split_ifs at h
  rcases List.exists_of_findSome?_eq_some h with ⟨ext, hext, hf⟩
  cases hfa : fontAltEnd s (p + 1) ext with
  | none => rw [hfa] at hf; cases hf
  | some e =>
    rw [hfa] at hf
    cases hf
    have hmem := List.mem_of_mem_getLast? hfa
    rw [List.mem_filter] at hmem
    obtain ⟨-, hcond⟩ := hmem
    rw [Bool.and_eq_true, Bool.and_eq_true] at hcond
    have hge := of_decide_eq_true hcond.1.1
    omega

theorem sizePM_bound : PMBound sizePM := by
  intro s p a q h
  unfold sizePM at h
  dsimp only at h
  split_ifs at h
  cases h
  omega

theorem boldPM_bound : PMBound boldPM := by
  intro s p a q h
  cases h
  exact le_refl p

theorem resolveStyleAt_none (P : BBParts) (i : ℕ)
    (h : getParam P.align i = none ∨ getParam P.color i = none ∨
      getParam P.font i = none ∨ getParam P.size i = none ∨
      getParam P.bold i = none) :
    resolveStyleAt P i = none := by
  unfold resolveStyleAt
  cases hA : getParam P.align i with
  | none => rfl
  | some av =>
    cases hC : getParam P.color i with
    | none => rfl
    | some cv =>
      cases hF : getParam P.font i with
      | none => rfl
      | some fv =>
        cases hS : getParam P.size i with
        | none => rfl
        | some sv =>
          cases hB : getParam P.bold i with
          | none => rfl
          | some bv =>
            exfalso
            rcases h with h | h | h | h | h <;> simp_all

/-- Claim C7: `from_bbcode_text("[b]A[/b]B")` yields a single line at the
supplied default alignment holding exactly two glyph runs — 'A' built with the
bold font resolution and 'B' with the non-bold one; more generally, a
character whose index lies strictly inside a tag delimiter region of any of
the five attribute kinds resolves to no style, and the main loop drops any
character whose style does not resolve. -/
theorem bbcode_bold_and_tag_omission :
    (∀ (env : BBEnv) (fs : ℕ) (fill : ColorV) (sp : ℤ) (al : HAlign)
        (fn : List Char) (fb : List (List Char)),
      (fromBBCodeText env "[b]A[/b]B".toList fs fill sp al fn fb).lines =
        [Line.mk [bbRun env 'A' true fn fb fs fill,
          bbRun env 'B' false fn fb fs fill] al]) ∧
    (∀ (s : List Char) (alD : HAlign) (fillD : ColorV) (fnD : List Char)
        (szD : ℕ) (i : ℕ),
      (InDelim (splitTextF "align".toList alignPM alD s) i ∨
       InDelim (splitTextF "color".toList colorPM fillD s) i ∨
       InDelim (splitTextF "font".toList fontPM fnD s) i ∨
       InDelim (splitTextF "size".toList sizePM szD s) i ∨
       InDelim (splitTextF "b".toList boldPM false s) i) →
      resolveStyleAt (bbParts s alD fillD fnD szD) i = none) ∧
    (∀ (env : BBEnv) (fb : List (List Char)) (P : BBParts) (i : ℕ) (ch : Char)
        (rest : List (ℕ × Char)) (lines : List Line) (chars : List GlyphRun)
        (la : HAlign),
      resolveStyleAt P i = none →
      bbLoop env fb P ((i, ch) :: rest) lines chars la =
        bbLoop env fb P rest lines chars la) := by
  refine ⟨?_, ?_, ?_⟩
  · intro env fs fill sp al fn fb
    cases al <;> rfl
  · intro s alD fillD fnD szD i hdel
    apply resolveStyleAt_none
    rcases hdel with h | h | h | h | h
    · exact Or.inl (getParam_none_of_inDelim alignPM_bound alD s i h)
    · exact Or.inr (Or.inl (getParam_none_of_inDelim colorPM_bound fillD s i h))
    · exact Or.inr (Or.inr (Or.inl (getParam_none_of_inDelim fontPM_bound fnD s i h)))
    · exact Or.inr (Or.inr (Or.inr (Or.inl
        (getParam_none_of_inDelim sizePM_bound szD s i h))))
    · exact Or.inr (Or.inr (Or.inr (Or.inr
        (getParam_none_of_inDelim boldPM_bound false s i h))))
  · intro env fb P i ch rest lines chars la h
    rw [bbLoop, h]

theorem bbcode_bold_and_tag_omission_witness :
    InDelim (splitTextF "b".toList boldPM false "[b]A[/b]B".toList) 0 ∧
    resolveStyleAt (bbParts "[b]A[/b]B".toList HAlign.left (ColorV.str ['k']) [] 30)
      0 = none ∧
    bbLoop dEnv [] (bbParts "[b]A[/b]B".toList HAlign.left (ColorV.str ['k']) [] 30)
        [(0, '[')] [] [] HAlign.left =
      bbLoop dEnv [] (bbParts "[b]A[/b]B".toList HAlign.left (ColorV.str ['k']) [] 30)
        [] [] [] HAlign.left := by
  have h2 := bbcode_bold_and_tag_omission.2.1 "[b]A[/b]B".toList HAlign.left
    (ColorV.str ['k']) [] 30 0 (Or.inr (Or.inr (Or.inr (Or.inr (by decide)))))
  exact ⟨by decide, h2,
    bbcode_bold_and_tag_omission.2.2 dEnv [] _ 0 '[' [] [] [] HAlign.left h2⟩

/-- Claim C2, counterexample: with the default left alignment,
`from_bbcode_text("[align=center]Hi[/align]There")` yields three lines, not
two — the alignment-change flush fires before any character has accumulated
and appends an initial empty line. -/
theorem bbcode_align_split_cex :
    (fromBBCodeText dEnv "[align=center]Hi[/align]There".toList 30
        (ColorV.str ['k']) 6 HAlign.left [] []).lines.length ≠ 2 := by
  decide

/-- Claim C2 (amended): with the default left alignment,
`from_bbcode_text("[align=center]Hi[/align]There")` yields exactly three
lines: an empty left-aligned line flushed at the alignment boundary, then the
center-aligned "Hi", then the left-aligned "There" — the alignment change
alone forces the breaks, with no explicit newline present. -/
theorem bbcode_align_split (env : BBEnv) (fs : ℕ) (fill : ColorV) (sp : ℤ)
    (fn : List Char) (fb : List (List Char)) :
    (fromBBCodeText env "[align=center]Hi[/align]There".toList fs fill sp
        HAlign.left fn fb).lines =
      [Line.mk [] HAlign.left,
       Line.mk [bbRun env 'H' false fn fb fs fill,
         bbRun env 'i' false fn fb fs fill] HAlign.center,
       Line.mk [bbRun env 'T' false fn fb fs fill, bbRun env 'h' false fn fb fs fill,
         bbRun env 'e' false fn fb fs fill, bbRun env 'r' false fn fb fs fill,
         bbRun env 'e' false fn fb fs fill] HAlign.left] := rfl

/-- Claim C3: the docstring promises `[color=#66CCFF|...]` support, but the
pattern is built with an f-string whose `{6}` collapses to the literal `6`;
the hex alternative is `#[a-fA-F0-9]6`, so a six-hex-digit color tag never
matches.  Evaluated at the failing input `[color=#66CCFF]Hi[/color]`: all 25
characters (tag delimiters included) are rendered literally on one line and
every glyph run keeps the default fill, instead of a colored "Hi" with the
tags stripped. -/
theorem bbcode_hex_color_bug :
    ((fromBBCodeText dEnv "[color=#66CCFF]Hi[/color]".toList 30 (ColorV.str ['k'])
        6 HAlign.left [] []).lines.map fun l => l.chars.map GlyphRun.char) =
      ["[color=#66CCFF]Hi[/color]".toList] ∧
    ((fromBBCodeText dEnv "[color=#66CCFF]Hi[/color]".toList 30 (ColorV.str ['k'])
        6 HAlign.left [] []).lines.map fun l => l.chars.map GlyphRun.fill) =
      [List.replicate 25 (ColorV.str ['k'])] :=
  ⟨by decide, by decide⟩
